import Mathlib

/-!
Verification of the storage layer of the `http-docker-image-mgr` repository.

The development shallowly embeds the Go source: the in-memory name index
(`ImageNameList`), the identifier parser (`parseImageName`), and the three
storage backends (filesystem, docker-engine delegated, MongoDB GridFS).
Stateful operations are embedded as explicit state-passing functions; the
operating system, the docker daemon and the MongoDB server are modelled by
explicit environment records describing which external calls succeed.
-/

namespace HttpDockerImageMgr

/-- In-memory name index from the source.  `nameList` embeds the Go slice
`nameList []string`; `nameMap` embeds the key set of the Go
`nameMap map[string]string` (the stored value always equals the key, so only
key membership is observable). -/
structure ImageNameList where
  nameList : List String
  nameMap : List String
  deriving Repr, DecidableEq

/-- Constructor `NewImageNameList`: both structures start empty. -/
def NewImageNameList : ImageNameList := ⟨[], []⟩

/-- Method `Add`: if the name is already a key of `nameMap`, return an error
and change nothing; otherwise insert into the map and append to the slice. -/
def ImageNameList.Add (inl : ImageNameList) (name : String) :
    Except String Unit × ImageNameList :=
  if name ∈ inl.nameMap then
    (Except.error (name ++ " already exists"), inl)
  else
    (Except.ok (), ⟨inl.nameList ++ [name], name :: inl.nameMap⟩)

/-- Method `Names`: returns the slice. -/
def ImageNameList.Names (inl : ImageNameList) : List String := inl.nameList

/-- Index of the first occurrence of `name` in a slice, embedding the
`for i, image_name := range inl.nameList` search of `Remove`. -/
def firstIdxOf (name : String) : List String → Option Nat
  | [] => none
  | x :: rest => if x = name then some 0 else (firstIdxOf name rest).map (· + 1)

/-- Method `Remove`: when the name is a map key it is deleted from the map,
then the slice is scanned; at the first occurrence the element is swapped
with the last element (both sides of the Go parallel assignment read the
original slice) and the slice is truncated by one.  If the name is not a map
key — or, after the map deletion, not in the slice — an error is returned. -/
def ImageNameList.Remove (inl : ImageNameList) (name : String) :
    Except String Unit × ImageNameList :=
  if name ∈ inl.nameMap then
    let m := inl.nameMap.erase name
    match firstIdxOf name inl.nameList with
    | some i =>
      let l := inl.nameList
      let n := l.length
      let swapped := (l.set i (l.getD (n - 1) "")).set (n - 1) (l.getD i "")
      (Except.ok (), ⟨swapped.take (n - 1), m⟩)
    | none => (Except.error ("image " ++ name ++ " is not found"), ⟨inl.nameList, m⟩)
  else
    (Except.error ("image " ++ name ++ " is not found"), inl)

/-- Byte index of the first `:` in a character list, embedding
`strings.Index(name, ":")` (a colon is a single UTF-8 byte, so the byte
index of the first colon equals its character index, and Go's byte slicing
at that index coincides with character slicing). -/
def indexOfColon : List Char → Option Nat
  | [] => none
  | c :: rest => if c = ':' then some 0 else (indexOfColon rest).map (· + 1)

/-- Function `parseImageName`: no colon gives tag `"latest"`; otherwise the
repository is everything before the first colon and the tag is everything
after it. -/
def parseImageName (name : String) : String × String :=
  match indexOfColon name.data with
  | none => (name, "latest")
  | some pos => (⟨name.data.take pos⟩, ⟨name.data.drop (pos + 1)⟩)

/-- Predicate on an alias from `img.RepoTags` that the docker backend's
listing discards: `strings.HasPrefix(name, "<none>")` or
`strings.HasSuffix(name, ":<none>")`. -/
def dockerDiscard (name : String) : Bool :=
  ("<none>".data).isPrefixOf name.data || (":<none>".data).isSuffixOf name.data

/-- Method `List` of `DockerImageStorage`, applied to the reply of
`client.ListImages`: `none` models a runtime error (the method returns the
empty slice together with that error); `some imgs` models a successful reply
in which each image contributes its `RepoTags` alias list.  Every alias is
appended to the result unless the `<none>` filter discards it. -/
def DockerImageStorage.List : Option (List (List String)) → List String
  | none => []
  | some imgs =>
    imgs.foldl
      (fun result repoTags =>
        result ++ repoTags.filter (fun name => !dockerDiscard name)) []

/-- The untagged-alias filter as the specification words it, written only to
compare the specified filter with the implemented one: an alias is excluded
exactly when it is equal to the placeholder token `"<none>"` or ends with
`":<none>"`. -/
def specDiscard (name : String) : Bool :=
  name == "<none>" || (":<none>".data).isSuffixOf name.data

/-- The docker listing as the specification words it, written only to compare
with `DockerImageStorage.List`: the aliases of all images, flattened, minus
precisely those that `specDiscard` matches. -/
def dockerListSpec : Option (List (List String)) → List String
  | none => []
  | some imgs => imgs.flatten.filter (fun name => !specDiscard name)

/-- Environment of one Mongo operation: which of its external calls succeed.
`dialOk` models `mgo.Dial`, `openOk` models `fs.Open` of the GridFS entry,
`copyOk` models `io.Copy`, `removeOk` models `fs.Remove`. -/
structure MongoEnv where
  dialOk : Bool
  openOk : Bool
  copyOk : Bool
  removeOk : Bool
  deriving Repr, DecidableEq

/-- Observable outcome of one Mongo operation, recording the session
lifecycle: whether `createGridFS` opened a session, whether that session was
closed before the method returned, and whether the method returned a nil
error.  The data plane (bytes, index updates) is not needed by the session
claims and is abstracted away. -/
structure MongoTrace where
  sessionOpened : Bool
  sessionClosed : Bool
  returnedOk : Bool
  deriving Repr, DecidableEq

/-- Method `Get` of `MongoImageStorage`: dial, then `fs.Open(name)`; both
`defer file.Close()` and `defer session.Close()` are registered only after
the open succeeds, so a failed open returns with the session still open. -/
def MongoImageStorage.Get (env : MongoEnv) : MongoTrace :=
  if !env.dialOk then ⟨false, false, false⟩
  else if !env.openOk then ⟨true, false, false⟩
  else ⟨true, true, env.copyOk⟩

/-- Method `Write` of `MongoImageStorage`: dial, register
`defer session.Close()` immediately, then `fs.Open(name)` (a second
`defer session.Close()` after the open is redundant for the lifecycle
booleans), then copy. -/
def MongoImageStorage.Write (env : MongoEnv) : MongoTrace :=
  if !env.dialOk then ⟨false, false, false⟩
  else if !env.openOk then ⟨true, true, false⟩
  else ⟨true, true, env.copyOk⟩

/-- Method `Remove` of `MongoImageStorage`: dial, register
`defer session.Close()` immediately, then `fs.Remove(name)`. -/
def MongoImageStorage.Remove (env : MongoEnv) : MongoTrace :=
  if !env.dialOk then ⟨false, false, false⟩
  else ⟨true, true, env.removeOk⟩

/-- Startup scan `loadImageNames` of `MongoImageStorage`: dial, register
`defer session.Close()` immediately, iterate the file index, return nil. -/
def MongoImageStorage.loadImageNames (env : MongoEnv) : MongoTrace :=
  if !env.dialOk then ⟨false, false, false⟩
  else ⟨true, true, true⟩

/-- Environment of one filesystem operation: which of its external calls
succeed.  `mkdirOk` models `os.MkdirAll`, `createOk` models `os.Create`,
`copyOk` models `io.Copy`, and `partialLen` is the number of bytes a failing
copy wrote before the error. -/
structure FileEnv where
  mkdirOk : Bool
  createOk : Bool
  copyOk : Bool
  partialLen : Nat
  deriving Repr, DecidableEq

/-- Contents of the filesystem under the backend's root directory: the file
`Dir/repo/tag` is modelled as the key `(repo, tag)`. -/
abbrev FileSys := String × String → Option (List UInt8)

/-- State of `FileImageStorage`: the root directory, the name index, and the
modelled on-disk contents under the root. -/
structure FileImageStorage where
  Dir : String
  images : ImageNameList
  fsState : FileSys

/-- Method `Write` of `FileImageStorage`: parse the identifier, make the
repository directory, create (truncate) the tag file, copy the payload.  A
successful copy stores the payload, registers the rejoined identifier in the
index with the index's own error discarded, and returns nil; a failed copy
leaves the partial bytes in the file and returns the copy error. -/
def FileImageStorage.Write (env : FileEnv) (fis : FileImageStorage)
    (name : String) (payload : List UInt8) :
    Except Unit Unit × FileImageStorage :=
  let p := parseImageName name
  if !env.mkdirOk then (Except.error (), fis)
  else if !env.createOk then (Except.error (), fis)
  else if env.copyOk then
    (Except.ok (),
      { fis with
        fsState := fun k => if k = p then some payload else fis.fsState k
        images := (fis.images.Add (p.1 ++ ":" ++ p.2)).2 })
  else
    (Except.error (),
      { fis with
        fsState := fun k =>
          if k = p then some (payload.take env.partialLen) else fis.fsState k })

/-- Method `Get` of `FileImageStorage`: parse the identifier and open
`Dir/repo/tag` (the open fails exactly when the file is absent), then copy
the contents to the caller's sink; the delivered bytes are the returned
value. -/
def FileImageStorage.Get (env : FileEnv) (fis : FileImageStorage)
    (name : String) : Except Unit (List UInt8) :=
  let p := parseImageName name
  match fis.fsState p with
  | none => Except.error ()
  | some content => if env.copyOk then Except.ok content else Except.error ()

/-- Methods required by the `ImageStorage` interface. -/
def imageStorageMethods : List String := ["Write", "Get", "Delete", "List"]

/-- Methods defined on `FileImageStorage` in the source. -/
def fileImageStorageMethods : List String :=
  ["Write", "Get", "List", "Delete", "loadImageNames"]

/-- Methods defined on `DockerImageStorage` in the source. -/
def dockerImageStorageMethods : List String :=
  ["Write", "Get", "Delete", "List"]

/-- Methods defined on `MongoImageStorage` in the source. -/
def mongoImageStorageMethods : List String :=
  ["Get", "List", "Write", "Remove", "loadImageNames", "createGridFS"]

/-- A type implements the `ImageStorage` interface exactly when it defines
every method the interface declares. -/
def implementsImageStorage (methods : List String) : Bool :=
  imageStorageMethods.all (fun m => methods.contains m)

/-- State reached from `s` by a sequence of `Add` calls. -/
def applyAdds (names : List String) (s : ImageNameList) : ImageNameList :=
  names.foldl (fun st n => (st.Add n).2) s

/-- One mutating call on the name index. -/
inductive IndexOp where
  | add (name : String)
  | remove (name : String)
  deriving Repr, DecidableEq

/-- Effect of one mutating call on the index state. -/
def stepOp (s : ImageNameList) : IndexOp → ImageNameList
  | IndexOp.add n => (s.Add n).2
  | IndexOp.remove n => (s.Remove n).2

/-- State reached from the empty index by a sequence of `Add`/`Remove`
calls. -/
def applyOps (ops : List IndexOp) : ImageNameList :=
  ops.foldl stepOp NewImageNameList

/-- Well-formedness of an index state: the slice has no duplicates, the map
keys are unique (as Go map keys are by construction), and slice and map hold
exactly the same identifiers. -/
def IndexInv (s : ImageNameList) : Prop :=
  s.nameList.Nodup ∧ s.nameMap.Nodup ∧
    (∀ n ∈ s.nameList, n ∈ s.nameMap) ∧ ∀ n ∈ s.nameMap, n ∈ s.nameList

instance (s : ImageNameList) : Decidable (IndexInv s) := by
  unfold IndexInv
  infer_instance

end HttpDockerImageMgr

namespace HttpDockerImageMgr

/-! Helper lemmas about list indexing, the first-occurrence scan, and the
name-index invariant. -/

theorem getD_at_split {α : Type} (A : List α) (x : α) (B : List α) (d : α) :
    (A ++ x :: B).getD A.length d = x := by
  induction A with
  | nil => rfl
  | cons a A ih =>
    simp only [List.cons_append, List.length_cons, List.getD_cons_succ]
    exact ih

theorem set_at_split {α : Type} (A : List α) (x y : α) (B : List α) :
    (A ++ x :: B).set A.length y = A ++ y :: B := by
  induction A with
  | nil => rfl
  | cons a A ih => simp [ih]

theorem take_at_split {α : Type} (A B : List α) : (A ++ B).take A.length = A := by
  induction A with
  | nil => rfl
  | cons a A ih => simp [ih]

theorem drop_at_split {α : Type} (A : List α) (x : α) (B : List α) :
    (A ++ x :: B).drop (A.length + 1) = B := by
  induction A with
  | nil => rfl
  | cons a A ih => simp [ih]

theorem take_set_ge {α : Type} :
    ∀ (l : List α) (i k : Nat) (a : α), k ≤ i →
      (l.set i a).take k = l.take k := by
  intro l
  induction l with
  | nil => simp
  | cons x l ih =>
    intro i k a hk
    cases i with
    | zero =>
      have : k = 0 := Nat.le_zero.mp hk
      subst this
      simp
    | succ i =>
      cases k with
      | zero => simp
      | succ k => simp [ih i k a (Nat.le_of_succ_le_succ hk)]

theorem firstIdxOf_split (A : List String) (name : String) (B : List String)
    (h : name ∉ A) :
    firstIdxOf name (A ++ name :: B) = some A.length := by
  induction A with
  | nil => simp [firstIdxOf]
  | cons a A ih =>
    have ha : ¬a = name := fun hx => h (hx ▸ List.mem_cons_self a A)
    have h' : name ∉ A := fun hm => h (List.mem_cons_of_mem a hm)
    simp [firstIdxOf, ha, ih h']

theorem first_split (name : String) (l : List String) (h : name ∈ l) :
    ∃ A B, l = A ++ name :: B ∧ name ∉ A := by
  induction l with
  | nil => cases h
  | cons x l ih =>
    by_cases hx : x = name
    · exact ⟨[], l, by simp [hx], by simp⟩
    · have h' : name ∈ l := by
        rcases List.mem_cons.mp h with h | h
        · exact absurd h.symm hx
        · exact h
      obtain ⟨A, B, hAB, hA⟩ := ih h'
      refine ⟨x :: A, B, by simp [hAB], ?_⟩
      intro hmem
      rcases List.mem_cons.mp hmem with h | h
      · exact hx h.symm
      · exact hA h

theorem perm_case_snoc {α : Type} (A B' : List α) (b name : α) :
    List.Perm (A ++ name :: (B' ++ [b])) (name :: (A ++ b :: B')) := by
  have h1 : List.Perm (A ++ name :: (B' ++ [b])) (name :: (A ++ (B' ++ [b]))) :=
    List.perm_middle
  have h2 : List.Perm (A ++ (B' ++ [b])) (b :: (A ++ B')) := by
    rw [← List.append_assoc]
    exact List.perm_append_singleton b (A ++ B')
  have h3 : List.Perm (b :: (A ++ B')) (A ++ b :: B') := List.perm_middle.symm
  exact h1.trans ((h2.trans h3).cons name)

theorem remove_last (A : List String) (name : String) (m : List String)
    (hA : name ∉ A) (hm : name ∈ m) :
    ImageNameList.Remove ⟨A ++ [name], m⟩ name
      = (Except.ok (), ⟨A, m.erase name⟩) := by
  have hidx : firstIdxOf name (A ++ [name]) = some A.length :=
    firstIdxOf_split A name [] hA
  have hlen : (A ++ [name]).length = A.length + 1 := by simp
  unfold ImageNameList.Remove
  rw [if_pos hm, hidx]
  simp only [hlen, Nat.add_sub_cancel]
  rw [getD_at_split A name [] "", set_at_split A name name []]
  rw [take_set_ge (A ++ name :: []) A.length A.length name (Nat.le_refl _)]
  rw [take_at_split A [name]]

theorem remove_snoc (A B : List String) (b name : String) (m : List String)
    (hA : name ∉ A) (hm : name ∈ m) :
    ImageNameList.Remove ⟨A ++ name :: (B ++ [b]), m⟩ name
      = (Except.ok (), ⟨A ++ b :: B, m.erase name⟩) := by
  have hidx : firstIdxOf name (A ++ name :: (B ++ [b])) = some A.length :=
    firstIdxOf_split A name (B ++ [b]) hA
  have hassoc : A ++ name :: (B ++ [b]) = (A ++ name :: B) ++ [b] := by simp
  have hlen : (A ++ name :: (B ++ [b])).length = (A ++ name :: B).length + 1 := by
    simp only [List.length_append, List.length_cons, List.length_nil]
    omega
  have hgetD : (A ++ name :: (B ++ [b])).getD ((A ++ name :: B).length) "" = b := by
    rw [hassoc]
    exact getD_at_split (A ++ name :: B) b [] ""
  unfold ImageNameList.Remove
  rw [if_pos hm, hidx]
  simp only [hlen, Nat.add_sub_cancel]
  rw [getD_at_split A name (B ++ [b]) "", hgetD]
  rw [set_at_split A name b (B ++ [b])]
  rw [take_set_ge (A ++ b :: (B ++ [b])) ((A ++ name :: B).length)
    ((A ++ name :: B).length) name (Nat.le_refl _)]
  have hassoc2 : A ++ b :: (B ++ [b]) = (A ++ b :: B) ++ [b] := by simp
  have hlen2 : (A ++ name :: B).length = (A ++ b :: B).length := by simp
  rw [hassoc2, hlen2, take_at_split (A ++ b :: B) [b]]

theorem remove_not_in_map (s : ImageNameList) (name : String)
    (h : name ∉ s.nameMap) :
    s.Remove name = (Except.error ("image " ++ name ++ " is not found"), s) := by
  unfold ImageNameList.Remove
  rw [if_neg h]

theorem add_present (s : ImageNameList) (name : String) (h : name ∈ s.nameMap) :
    s.Add name = (Except.error (name ++ " already exists"), s) := by
  unfold ImageNameList.Add
  rw [if_pos h]

theorem add_absent (s : ImageNameList) (name : String) (h : name ∉ s.nameMap) :
    s.Add name = (Except.ok (), ⟨s.nameList ++ [name], name :: s.nameMap⟩) := by
  unfold ImageNameList.Add
  rw [if_neg h]

theorem inv_add (s : ImageNameList) (name : String) (h : IndexInv s) :
    IndexInv (s.Add name).2 := by
  by_cases hm : name ∈ s.nameMap
  · rw [add_present s name hm]
    exact h
  · rw [add_absent s name hm]
    obtain ⟨h1, h2, h3, h4⟩ := h
    have hnl : name ∉ s.nameList := fun hx => hm (h3 _ hx)
    refine ⟨?_, ?_, ?_, ?_⟩
    · rw [(List.perm_append_singleton name s.nameList).nodup_iff]
      exact List.nodup_cons.mpr ⟨hnl, h1⟩
    · exact List.nodup_cons.mpr ⟨hm, h2⟩
    · intro n hn
      rcases List.mem_append.mp hn with hx | hx
      · exact List.mem_cons_of_mem _ (h3 _ hx)
      · have : n = name := List.mem_singleton.mp hx
        subst this
        exact List.mem_cons_self _ _
    · intro n hn
      rcases List.mem_cons.mp hn with hx | hx
      · subst hx
        exact List.mem_append_right _ (List.mem_singleton.mpr rfl)
      · exact List.mem_append_left _ (h4 _ hx)

theorem inv_remove (s : ImageNameList) (name : String) (h : IndexInv s) :
    IndexInv (s.Remove name).2 := by
  obtain ⟨l, m⟩ := s
  obtain ⟨h1, h2, h3, h4⟩ := h
  by_cases hm : name ∈ m
  · have hl : name ∈ l := h4 name hm
    obtain ⟨A, B, hsplit, hA⟩ := first_split name l hl
    subst hsplit
    rcases List.eq_nil_or_concat B with hB | ⟨B', b, hB⟩
    · subst hB
      rw [remove_last A name m hA hm]
      have hperm : List.Perm (A ++ [name]) (name :: A) :=
        List.perm_append_singleton name A
      have h1' := hperm.nodup_iff.mp h1
      have hnameA : name ∉ A := (List.nodup_cons.mp h1').1
      refine ⟨(List.nodup_cons.mp h1').2, h2.erase name, ?_, ?_⟩
      · intro n hn
        have hnm : n ∈ m := h3 _ (List.mem_append_left _ hn)
        have hne : n ≠ name := fun he => hnameA (he ▸ hn)
        exact (List.mem_erase_of_ne hne).mpr hnm
      · intro n hn
        have hpair := h2.mem_erase_iff.mp hn
        have hnl : n ∈ A ++ [name] := h4 _ hpair.2
        rcases List.mem_append.mp hnl with hx | hx
        · exact hx
        · exact absurd (List.mem_singleton.mp hx) hpair.1
    · rw [List.concat_eq_append] at hB
      subst hB
      rw [remove_snoc A B' b name m hA hm]
      have hperm := perm_case_snoc A B' b name
      have h1' := hperm.nodup_iff.mp h1
      have hnotin : name ∉ A ++ b :: B' := (List.nodup_cons.mp h1').1
      refine ⟨(List.nodup_cons.mp h1').2, h2.erase name, ?_, ?_⟩
      · intro n hn
        have hn_orig : n ∈ A ++ name :: (B' ++ [b]) :=
          hperm.mem_iff.mpr (List.mem_cons_of_mem name hn)
        have hnm : n ∈ m := h3 _ hn_orig
        have hne : n ≠ name := fun he => hnotin (he ▸ hn)
        exact (List.mem_erase_of_ne hne).mpr hnm
      · intro n hn
        have hpair := h2.mem_erase_iff.mp hn
        have hn_orig : n ∈ A ++ name :: (B' ++ [b]) := h4 _ hpair.2
        rcases List.mem_cons.mp (hperm.mem_iff.mp hn_orig) with he | hx
        · exact absurd he hpair.1
        · exact hx
  · rw [remove_not_in_map ⟨l, m⟩ name hm]
    exact ⟨h1, h2, h3, h4⟩

theorem inv_applyAdds (names : List String) (s : ImageNameList)
    (h : IndexInv s) : IndexInv (applyAdds names s) := by
  induction names generalizing s with
  | nil => exact h
  | cons n names ih => exact ih _ (inv_add s n h)

theorem inv_applyOps (ops : List IndexOp) : IndexInv (applyOps ops) := by
  have key : ∀ (ops : List IndexOp) (s : ImageNameList), IndexInv s →
      IndexInv (ops.foldl stepOp s) := by
    intro ops
    induction ops with
    | nil => intro s h; exact h
    | cons op ops ih =>
      intro s h
      refine ih _ ?_
      cases op with
      | add n => exact inv_add s n h
      | remove n => exact inv_remove s n h
  exact key ops NewImageNameList (by decide)

theorem indexOfColon_eq_none (cs : List Char) (h : (':') ∉ cs) :
    indexOfColon cs = none := by
  induction cs with
  | nil => rfl
  | cons c rest ih =>
    have hc : ¬c = ':' := fun he => h (he ▸ List.mem_cons_self c rest)
    have h' : (':') ∉ rest := fun hmem => h (List.mem_cons_of_mem c hmem)
    simp [indexOfColon, hc, ih h']

theorem indexOfColon_split (r t : List Char) (h : (':') ∉ r) :
    indexOfColon (r ++ ':' :: t) = some r.length := by
  induction r with
  | nil => simp [indexOfColon]
  | cons c rest ih =>
    have hc : ¬c = ':' := fun he => h (he ▸ List.mem_cons_self c rest)
    have h' : (':') ∉ rest := fun hmem => h (List.mem_cons_of_mem c hmem)
    simp [indexOfColon, hc, ih h']

theorem parse_no_colon (s : String) (h : (':') ∉ s.data) :
    parseImageName s = (s, "latest") := by
  unfold parseImageName
  rw [indexOfColon_eq_none s.data h]

theorem parse_split (r t : String) (h : (':') ∉ r.data) :
    parseImageName (r ++ ":" ++ t) = (r, t) := by
  have hcolon : (":" : String).data = [':'] := rfl
  have hdata : (r ++ ":" ++ t).data = r.data ++ ':' :: t.data := by
    simp [hcolon]
  unfold parseImageName
  rw [hdata, indexOfColon_split r.data t.data h]
  simp only [take_at_split r.data (':' :: t.data), drop_at_split r.data ':' t.data]

theorem foldl_filter_flatten (f : String → Bool) (imgs : List (List String)) :
    ∀ acc : List String,
      imgs.foldl (fun r ts => r ++ ts.filter f) acc
        = acc ++ (imgs.flatten.filter f) := by
  induction imgs with
  | nil => intro acc; simp
  | cons ts imgs ih => intro acc; simp [ih, List.filter_append, List.append_assoc]

theorem mem_add_map (s : ImageNameList) (name : String) :
    name ∈ (s.Add name).2.nameMap := by
  by_cases h : name ∈ s.nameMap
  · rw [add_present s name h]
    exact h
  · rw [add_absent s name h]
    exact List.mem_cons_self _ _

theorem mem_add_names (s : ImageNameList) (name : String) (hinv : IndexInv s) :
    name ∈ (s.Add name).2.nameList := by
  by_cases h : name ∈ s.nameMap
  · rw [add_present s name h]
    exact hinv.2.2.2 _ h
  · rw [add_absent s name h]
    exact List.mem_append_right _ (List.mem_singleton.mpr rfl)

theorem write_mkdir_fail (env : FileEnv) (fis : FileImageStorage)
    (name : String) (payload : List UInt8) (h : env.mkdirOk = false) :
    FileImageStorage.Write env fis name payload = (Except.error (), fis) := by
  unfold FileImageStorage.Write
  simp [h]

theorem write_create_fail (env : FileEnv) (fis : FileImageStorage)
    (name : String) (payload : List UInt8)
    (h1 : env.mkdirOk = true) (h2 : env.createOk = false) :
    FileImageStorage.Write env fis name payload = (Except.error (), fis) := by
  unfold FileImageStorage.Write
  simp [h1, h2]

theorem write_copy_fail (env : FileEnv) (fis : FileImageStorage)
    (name : String) (payload : List UInt8)
    (h1 : env.mkdirOk = true) (h2 : env.createOk = true) (h3 : env.copyOk = false) :
    (FileImageStorage.Write env fis name payload).1 = Except.error () ∧
    (FileImageStorage.Write env fis name payload).2.images = fis.images := by
  unfold FileImageStorage.Write
  simp [h1, h2, h3]

theorem write_ok (env : FileEnv) (fis : FileImageStorage)
    (name : String) (payload : List UInt8)
    (h1 : env.mkdirOk = true) (h2 : env.createOk = true) (h3 : env.copyOk = true) :
    FileImageStorage.Write env fis name payload
      = (Except.ok (),
          { fis with
            fsState := fun k =>
              if k = parseImageName name then some payload else fis.fsState k
            images :=
              (fis.images.Add
                ((parseImageName name).1 ++ ":" ++ (parseImageName name).2)).2 }) := by
  unfold FileImageStorage.Write
  simp [h1, h2, h3]

end HttpDockerImageMgr

namespace HttpDockerImageMgr

/-! Claim theorems. -/

/-- C1: the `ImageStorage` interface declares `Write`, `Get`, `Delete` and
`List`.  `FileImageStorage` and `DockerImageStorage` define all four, but
`MongoImageStorage` defines no method named `Delete` — its deletion method is
named `Remove` — so the document-store backend does not satisfy the facade
contract and a caller depending only on the contract cannot invoke `Delete`
on it. -/
theorem mongoImageStorage_lacks_delete :
    implementsImageStorage fileImageStorageMethods = true ∧
    implementsImageStorage dockerImageStorageMethods = true ∧
    implementsImageStorage mongoImageStorageMethods = false ∧
    "Delete" ∉ mongoImageStorageMethods ∧
    "Remove" ∈ mongoImageStorageMethods := by decide

/-- C2 counterexample: on a runtime listing containing the single alias
`"<none>abc"`, the implemented listing discards it (it starts with the
placeholder token), while the filter described by the claim (equality with
the token, or a `":<none>"` suffix) would retain it; the claim as stated is
therefore false. -/
theorem dockerList_stricter_than_claimed :
    DockerImageStorage.List (some [["<none>abc"]]) = [] ∧
    dockerListSpec (some [["<none>abc"]]) = ["<none>abc"] := by decide

/-- C2 amended: for every successful runtime listing, the docker backend's
`List` returns exactly the aliases of all images, flattened in order, minus
precisely those aliases that start with the placeholder token `"<none>"` or
end with `":<none>"`; every other alias is retained. -/
theorem dockerList_flattens_and_filters (imgs : List (List String)) :
    DockerImageStorage.List (some imgs)
        = imgs.flatten.filter (fun name => !dockerDiscard name) ∧
    ∀ name : String,
      name ∈ DockerImageStorage.List (some imgs) ↔
        name ∈ imgs.flatten ∧ dockerDiscard name = false := by
  have he : DockerImageStorage.List (some imgs)
      = imgs.flatten.filter (fun name => !dockerDiscard name) := by
    have h := foldl_filter_flatten (fun name => !dockerDiscard name) imgs []
    simpa [DockerImageStorage.List] using h
  refine ⟨he, fun name => ?_⟩
  rw [he, List.mem_filter]
  simp

/-- C3: evaluation of the Mongo operations at the failing input.  When the
dial succeeds and the GridFS open of the named entry fails, `Get` returns
with its session opened but never closed (the claim demands closure on every
exit path, explicitly including this one), while `Write`, `Remove` and the
startup scan do close their session on the corresponding paths. -/
theorem mongoGet_session_leak :
    (MongoImageStorage.Get ⟨true, false, false, false⟩).sessionOpened = true ∧
    (MongoImageStorage.Get ⟨true, false, false, false⟩).sessionClosed = false ∧
    (MongoImageStorage.Write ⟨true, false, false, false⟩).sessionClosed = true ∧
    (MongoImageStorage.Remove ⟨true, false, false, false⟩).sessionClosed = true ∧
    (MongoImageStorage.loadImageNames ⟨true, false, false, false⟩).sessionClosed
      = true := by decide

/-- C4: starting from the empty index, any sequence of `Add` calls leaves
each identifier at most once in the enumeration slice; and on any state
already holding an identifier, a second `Add` of it returns the duplicate
error and leaves the index entirely unchanged (hence same size, same
membership set, same sequence contents). -/
theorem add_uniqueness :
    (∀ names : List String,
      (applyAdds names NewImageNameList).nameList.Nodup) ∧
    ∀ (s : ImageNameList) (name : String), name ∈ s.nameMap →
      (s.Add name).1 = Except.error (name ++ " already exists") ∧
      (s.Add name).2 = s := by
  refine ⟨fun names => (inv_applyAdds names NewImageNameList (by decide)).1, ?_⟩
  intro s name h
  rw [add_present s name h]
  exact ⟨rfl, rfl⟩

/-- Witness for C4 at concrete inputs. -/
theorem add_uniqueness_witness :
    (applyAdds ["a:1", "b:2", "a:1"] NewImageNameList).nameList.Nodup ∧
    ((ImageNameList.mk ["a:1"] ["a:1"]).Add "a:1").1
        = Except.error ("a:1" ++ " already exists") ∧
    ((ImageNameList.mk ["a:1"] ["a:1"]).Add "a:1").2
        = ImageNameList.mk ["a:1"] ["a:1"] :=
  ⟨add_uniqueness.1 ["a:1", "b:2", "a:1"],
   add_uniqueness.2 (ImageNameList.mk ["a:1"] ["a:1"]) "a:1" (by decide)⟩

/-- C5: on any well-formed index state, removing a present identifier
succeeds, removes it from both structures, shrinks the slice by exactly one,
and rearranges it by the swap-with-last-then-truncate rule: writing the
slice as `A ++ name :: B` with `name` not in `A`, the result is `A` when `B`
is empty, and `A ++ b :: B'` when `B = B' ++ [b]` — the former last element
`b` now occupies the removed slot and all other elements keep their order.
Removing an absent identifier returns the not-found error and leaves the
index unchanged. -/
theorem remove_swap_truncate (s : ImageNameList) (name : String)
    (hinv : IndexInv s) :
    (∀ A B, s.nameList = A ++ name :: B → name ∉ A →
      (s.Remove name).1 = Except.ok () ∧
      name ∉ (s.Remove name).2.Names ∧
      name ∉ (s.Remove name).2.nameMap ∧
      (s.Remove name).2.Names.length + 1 = s.nameList.length ∧
      (B = [] → (s.Remove name).2.Names = A) ∧
      (∀ B' b, B = B' ++ [b] → (s.Remove name).2.Names = A ++ b :: B')) ∧
    (name ∉ s.nameList →
      (s.Remove name).1 = Except.error ("image " ++ name ++ " is not found") ∧
      (s.Remove name).2 = s) := by
  constructor
  · intro A B hsplit hA
    have hml : name ∈ s.nameList := by
      rw [hsplit]
      exact List.mem_append_right _ (List.mem_cons_self _ _)
    have hm : name ∈ s.nameMap := hinv.2.2.1 _ hml
    have hs : s = ⟨A ++ name :: B, s.nameMap⟩ := by rw [← hsplit]
    rcases List.eq_nil_or_concat B with hB | ⟨B', b, hB⟩
    · subst hB
      have hcall : s.Remove name = (Except.ok (), ⟨A, s.nameMap.erase name⟩) := by
        rw [hs]
        exact remove_last A name s.nameMap hA hm
      have h1 : (A ++ [name]).Nodup := hsplit ▸ hinv.1
      have h1' := (List.perm_append_singleton name A).nodup_iff.mp h1
      have hnA : name ∉ A := (List.nodup_cons.mp h1').1
      rw [hcall, hsplit]
      refine ⟨rfl, hnA, List.Nodup.not_mem_erase hinv.2.1, ?_, fun _ => rfl, ?_⟩
      · simp [ImageNameList.Names]
      · intro B' b hBB
        exact absurd hBB (by simp)
    · rw [List.concat_eq_append] at hB
      subst hB
      have hcall : s.Remove name
          = (Except.ok (), ⟨A ++ b :: B', s.nameMap.erase name⟩) := by
        rw [hs]
        exact remove_snoc A B' b name s.nameMap hA hm
      have h1 : (A ++ name :: (B' ++ [b])).Nodup := hsplit ▸ hinv.1
      have h1' := (perm_case_snoc A B' b name).nodup_iff.mp h1
      have hnres : name ∉ A ++ b :: B' := (List.nodup_cons.mp h1').1
      rw [hcall, hsplit]
      refine ⟨rfl, hnres, List.Nodup.not_mem_erase hinv.2.1, ?_, ?_, ?_⟩
      · simp only [ImageNameList.Names, List.length_append, List.length_cons,
          List.length_nil]
        omega
      · intro hBB
        exact absurd hBB (by simp)
      · intro B'' b'' hEq
        obtain ⟨hB2, hb2⟩ := List.append_inj' hEq (by simp)
        have hb : b = b'' := by simpa using hb2
        rw [← hB2, ← hb]
        rfl
  · intro hnl
    have hm : name ∉ s.nameMap := fun hx => hnl (hinv.2.2.2 _ hx)
    rw [remove_not_in_map s name hm]
    exact ⟨rfl, rfl⟩

/-- Witness for C5 at a concrete three-element index. -/
theorem remove_swap_truncate_witness :
    ((ImageNameList.mk ["a:1", "b:2", "c:3"] ["a:1", "b:2", "c:3"]).Remove
        "a:1").1 = Except.ok () ∧
    ((ImageNameList.mk ["a:1", "b:2", "c:3"] ["a:1", "b:2", "c:3"]).Remove
        "a:1").2.Names = ["c:3", "b:2"] := by
  have h :=
    (remove_swap_truncate
        (ImageNameList.mk ["a:1", "b:2", "c:3"] ["a:1", "b:2", "c:3"]) "a:1"
        (by decide)).1 [] ["b:2", "c:3"] rfl (by decide)
  exact ⟨h.1, h.2.2.2.2.2 ["b:2"] "c:3" rfl⟩

/-- C6: every index state reachable from the empty index by any sequence of
`Add` and `Remove` calls holds exactly the same identifiers in the
enumeration slice and in the membership map; since every reachable state is
of this form, every `Add` and `Remove` preserves the agreement. -/
theorem reachable_set_seq_agree (ops : List IndexOp) (n : String) :
    n ∈ (applyOps ops).Names ↔ n ∈ (applyOps ops).nameMap :=
  ⟨fun h => (inv_applyOps ops).2.2.1 n h, fun h => (inv_applyOps ops).2.2.2 n h⟩

/-- C7: a filesystem `Write` on which directory creation, file creation or
the stream copy fails returns that error and leaves the name index
unchanged; a `Write` whose copy succeeds returns success unconditionally —
even when the identifier was already registered, the index's duplicate error
is swallowed — and afterwards the parsed-and-rejoined identifier is
registered in the index (in the membership map always, and in the
enumeration slice for every well-formed index). -/
theorem fileWrite_index_discipline (env : FileEnv) (fis : FileImageStorage)
    (name : String) (payload : List UInt8) :
    ((env.mkdirOk = false ∨ env.createOk = false ∨ env.copyOk = false) →
      (FileImageStorage.Write env fis name payload).1 = Except.error () ∧
      (FileImageStorage.Write env fis name payload).2.images = fis.images) ∧
    (env.mkdirOk = true → env.createOk = true → env.copyOk = true →
      (FileImageStorage.Write env fis name payload).1 = Except.ok () ∧
      ((parseImageName name).1 ++ ":" ++ (parseImageName name).2)
          ∈ (FileImageStorage.Write env fis name payload).2.images.nameMap ∧
      (IndexInv fis.images →
        ((parseImageName name).1 ++ ":" ++ (parseImageName name).2)
            ∈ (FileImageStorage.Write env fis name payload).2.images.Names)) := by
  constructor
  · intro h
    rcases h with h | h | h
    · rw [write_mkdir_fail env fis name payload h]
      exact ⟨rfl, rfl⟩
    · by_cases hmk : env.mkdirOk = true
      · rw [write_create_fail env fis name payload hmk h]
        exact ⟨rfl, rfl⟩
      · have hmk' : env.mkdirOk = false := by
          revert hmk
          cases env.mkdirOk <;> simp
        rw [write_mkdir_fail env fis name payload hmk']
        exact ⟨rfl, rfl⟩
    · by_cases hmk : env.mkdirOk = true
      · by_cases hcr : env.createOk = true
        · exact write_copy_fail env fis name payload hmk hcr h
        · have hcr' : env.createOk = false := by
            revert hcr
            cases env.createOk <;> simp
          rw [write_create_fail env fis name payload hmk hcr']
          exact ⟨rfl, rfl⟩
      · have hmk' : env.mkdirOk = false := by
          revert hmk
          cases env.mkdirOk <;> simp
        rw [write_mkdir_fail env fis name payload hmk']
        exact ⟨rfl, rfl⟩
  · intro h1 h2 h3
    rw [write_ok env fis name payload h1 h2 h3]
    exact ⟨rfl, mem_add_map _ _, fun hi => mem_add_names _ _ hi⟩

/-- Witness for C7: a successful write of `"app:v1"` into a fresh backend. -/
theorem fileWrite_index_discipline_witness :
    (FileImageStorage.Write ⟨true, true, true, 0⟩
        ⟨"/images", NewImageNameList, fun _ => none⟩ "app:v1" [104, 105]).1
      = Except.ok () ∧
    ((parseImageName "app:v1").1 ++ ":" ++ (parseImageName "app:v1").2)
        ∈ (FileImageStorage.Write ⟨true, true, true, 0⟩
            ⟨"/images", NewImageNameList, fun _ => none⟩ "app:v1"
            [104, 105]).2.images.nameMap ∧
    ((parseImageName "app:v1").1 ++ ":" ++ (parseImageName "app:v1").2)
        ∈ (FileImageStorage.Write ⟨true, true, true, 0⟩
            ⟨"/images", NewImageNameList, fun _ => none⟩ "app:v1"
            [104, 105]).2.images.Names := by
  have h :=
    (fileWrite_index_discipline ⟨true, true, true, 0⟩
        ⟨"/images", NewImageNameList, fun _ => none⟩ "app:v1" [104, 105]).2
      rfl rfl rfl
  exact ⟨h.1, h.2.1, h.2.2 (by decide)⟩

/-- C8: on the filesystem backend, a successful `Write` of any payload under
an identifier `repo:tag` followed by a `Get` of the same identifier delivers
exactly that payload, byte for byte, to the caller's sink. -/
theorem file_roundtrip (env env' : FileEnv) (fis : FileImageStorage)
    (repo tag : String) (payload : List UInt8)
    (h1 : env.mkdirOk = true) (h2 : env.createOk = true)
    (h3 : env.copyOk = true) (h4 : env'.copyOk = true) :
    FileImageStorage.Get env'
        (FileImageStorage.Write env fis (repo ++ ":" ++ tag) payload).2
        (repo ++ ":" ++ tag) = Except.ok payload := by
  rw [write_ok env fis (repo ++ ":" ++ tag) payload h1 h2 h3]
  unfold FileImageStorage.Get
  simp [h4]

/-- Witness for C8 with a concrete payload. -/
theorem file_roundtrip_witness :
    FileImageStorage.Get ⟨true, true, true, 0⟩
        (FileImageStorage.Write ⟨true, true, true, 0⟩
            ⟨"/images", NewImageNameList, fun _ => none⟩
            ("redis" ++ ":" ++ "3.2") [0, 255, 7]).2
        ("redis" ++ ":" ++ "3.2") = Except.ok [0, 255, 7] :=
  file_roundtrip ⟨true, true, true, 0⟩ ⟨true, true, true, 0⟩
    ⟨"/images", NewImageNameList, fun _ => none⟩ "redis" "3.2" [0, 255, 7]
    rfl rfl rfl rfl

/-- C9: the identifier parser splits on the first colon and defaults the
tag: `"redis"` parses to `("redis", "latest")`, `"redis:3.2"` to
`("redis", "3.2")`; in general a colon-free input gets tag `"latest"`, and
an input containing a colon parses to the portion before its first colon
and everything after it. -/
theorem parse_identifier_spec :
    parseImageName "redis" = ("redis", "latest") ∧
    parseImageName "redis:3.2" = ("redis", "3.2") ∧
    (∀ s : String, (':') ∉ s.data → parseImageName s = (s, "latest")) ∧
    ∀ r t : String, (':') ∉ r.data → parseImageName (r ++ ":" ++ t) = (r, t) :=
  ⟨by decide, by decide, parse_no_colon, parse_split⟩

/-- Witness for C9's quantified clauses at concrete identifiers. -/
theorem parse_identifier_spec_witness :
    parseImageName "ubuntu" = ("ubuntu", "latest") ∧
    parseImageName ("my" ++ ":" ++ "tag:x") = ("my", "tag:x") :=
  ⟨parse_identifier_spec.2.2.1 "ubuntu" (by decide),
   parse_identifier_spec.2.2.2 "my" "tag:x" (by decide)⟩

/-- C10 counterexample: `"a:b:"` ends with a colon, yet the parser returns
tag `"b:"` — not the empty string — because it splits at the first colon;
the claim as stated (empty tag for every identifier ending in a colon) is
false. -/
theorem trailing_colon_counterexample :
    "a:b:".data.getLast? = some ':' ∧
    parseImageName "a:b:" = ("a", "b:") ∧
    ("b:" : String) ≠ "" := by decide

/-- C10 amended: for every identifier formed of a colon-free repository and
a trailing colon (e.g. `"repo:"`), the parser returns the empty string as
the tag rather than substituting the default `"latest"` (which applies only
to colon-free identifiers), so a filesystem `Write` of such an identifier
stores the payload under the empty file name inside the repository
directory and leaves the `"latest"` file untouched. -/
theorem trailing_colon_empty_tag (r : String) (env : FileEnv)
    (fis : FileImageStorage) (payload : List UInt8)
    (hr : (':') ∉ r.data)
    (h1 : env.mkdirOk = true) (h2 : env.createOk = true)
    (h3 : env.copyOk = true) :
    parseImageName (r ++ ":") = (r, "") ∧
    (FileImageStorage.Write env fis (r ++ ":") payload).2.fsState (r, "")
        = some payload ∧
    (FileImageStorage.Write env fis (r ++ ":") payload).2.fsState (r, "latest")
        = fis.fsState (r, "latest") := by
  have he : r ++ ":" ++ "" = r ++ ":" := by simp
  have hparse : parseImageName (r ++ ":") = (r, "") := by
    have h := parse_split r "" hr
    rw [he] at h
    exact h
  have hne : ("latest" : String) ≠ "" := by decide
  refine ⟨hparse, ?_, ?_⟩
  · rw [write_ok env fis (r ++ ":") payload h1 h2 h3]
    simp [hparse]
  · rw [write_ok env fis (r ++ ":") payload h1 h2 h3]
    simp [hparse, Prod.ext_iff, hne]

/-- Witness for C10's amended statement at `"repo:"`. -/
theorem trailing_colon_empty_tag_witness :
    parseImageName ("repo" ++ ":") = ("repo", "") ∧
    (FileImageStorage.Write ⟨true, true, true, 0⟩
        ⟨"/images", NewImageNameList, fun _ => none⟩ ("repo" ++ ":")
        [55]).2.fsState ("repo", "") = some [55] ∧
    (FileImageStorage.Write ⟨true, true, true, 0⟩
        ⟨"/images", NewImageNameList, fun _ => none⟩ ("repo" ++ ":")
        [55]).2.fsState ("repo", "latest")
      = (⟨"/images", NewImageNameList, fun _ => none⟩ :
          FileImageStorage).fsState ("repo", "latest") :=
  trailing_colon_empty_tag "repo" ⟨true, true, true, 0⟩
    ⟨"/images", NewImageNameList, fun _ => none⟩ [55] (by decide) rfl rfl rfl

end HttpDockerImageMgr
